import Mathlib

/-!
Shallow embedding of the `sketches` crate: the standard Bloom filter
(`src/filters/bloom/standard.rs`), its approximate-membership trait
(`src/filters/traits.rs`) and the seeded 64-bit hashing abstraction
(`src/hashing/traits.rs`, `src/hashing/murmur3_impl.rs`).

Machine integers are modelled as `Nat` with explicit `% 2 ^ w` at every
point where the Rust code wraps or truncates (`as u32`, `wrapping_add`,
`wrapping_mul`, `as u64`).  Fallible operations (panicking `assert!`,
out-of-bounds `BitVec` indexing, the `io::Result` of the murmur3 crate)
are modelled with `Option` / `Except`.  The `f64` sizing arithmetic of
`calculate_m` / `calculate_k` is modelled over the real numbers, the
only idealisation in the file: at every input a claim touches, the sign
and integer-bracketing facts proved about the real value are exact also
for `f64` evaluation.
-/

namespace Sketches

/-! ## Hashing layer: murmur3_x64_128 (external murmur3 crate, as called
by `src/hashing/murmur3_impl.rs` through an in-memory `Cursor`) -/

/-- Little-endian recombination of a byte list into a natural number,
modelling `u64::from_le_bytes` on a block of at most 8 bytes (each byte
is a value below 256; stray high bits of model inputs are masked the way
`u8` would). -/
def leBytesToNat : List Nat → Nat
  | [] => 0
  | b :: bs => b % 256 + 256 * leBytesToNat bs

/-- Left rotation of a 64-bit word, `u64::rotate_left`, for an argument
below `2 ^ 64` and a rotation amount at most 64. -/
def rotl64 (x r : Nat) : Nat :=
  (x * 2 ^ r + x / 2 ^ (64 - r)) % 2 ^ 64

/-- Final avalanche mix of murmur3 (`fmix64`). -/
def fmix64 (x : Nat) : Nat :=
  let a := x ^^^ (x >>> 33)
  let b := a * 0xff51afd7ed558ccd % 2 ^ 64
  let c := b ^^^ (b >>> 33)
  let d := c * 0xc4ceb9fe1a85ec53 % 2 ^ 64
  d ^^^ (d >>> 33)

/-- One `read` of up to 16 bytes from `std::io::Cursor` over an in-memory
byte slice: it returns the next `min 16 remaining` bytes and, unlike a
general reader, can never return an error. -/
def cursorRead (remaining : List Nat) : Except String (List Nat) :=
  Except.ok (remaining.take 16)

/-- Mixing of one full 16-byte block into the pair of accumulators, the
`read == 16` branch of `murmur3_x64_128`. -/
def murmurBlock (k1 k2 h1 h2 : Nat) : Nat × Nat :=
  let c1 : Nat := 0x87c37b91114253d5
  let c2 : Nat := 0x4cf5ad432745937f
  let h1a := h1 ^^^ (rotl64 (k1 * c1 % 2 ^ 64) 31 * c2 % 2 ^ 64)
  let h1b := ((rotl64 h1a 27 + h2) * 5 + 0x52dce729) % 2 ^ 64
  let h2a := h2 ^^^ (rotl64 (k2 * c2 % 2 ^ 64) 33 * c1 % 2 ^ 64)
  let h2b := ((rotl64 h2a 31 + h1b) * 5 + 0x38495ab5) % 2 ^ 64
  (h1b, h2b)

/-- Mixing of a final partial block (1 to 15 bytes), the tail branch of
`murmur3_x64_128`: the accumulators are xored but not further rotated. -/
def murmurTail (k1 k2 h1 h2 : Nat) : Nat × Nat :=
  let c1 : Nat := 0x87c37b91114253d5
  let c2 : Nat := 0x4cf5ad432745937f
  let h1a := h1 ^^^ (rotl64 (k1 * c1 % 2 ^ 64) 31 * c2 % 2 ^ 64)
  let h2a := h2 ^^^ (rotl64 (k2 * c2 % 2 ^ 64) 33 * c1 % 2 ^ 64)
  (h1a, h2a)

/-- Finalisation of `murmur3_x64_128` after the reader is exhausted
(`read == 0`): fold in the processed length, avalanche, and assemble the
128-bit digest `(h2 << 64) | h1`. -/
def murmurFinish (h1 h2 processed : Nat) : Nat :=
  let f1 := h1 ^^^ processed % 2 ^ 64
  let f2 := h2 ^^^ processed % 2 ^ 64
  let g1 := (f1 + f2) % 2 ^ 64
  let g2 := (f2 + g1) % 2 ^ 64
  let m1 := fmix64 g1
  let m2 := fmix64 g2
  let r1 := (m1 + m2) % 2 ^ 64
  let r2 := (m2 + r1) % 2 ^ 64
  r2 * 2 ^ 64 + r1

/-- The read loop of `murmur3_x64_128` from the murmur3 crate, reading
through `cursorRead`: full blocks are mixed, a partial block is folded as
tail, and a zero-length read triggers finalisation.  The `Except` error
path mirrors the `?` on the reader and is never taken for an in-memory
cursor. -/
def murmurLoop (bytes : List Nat) (h1 h2 processed : Nat) : Except String Nat :=
  match hr : cursorRead bytes with
  | .error e => .error e
  | .ok chunk =>
    if h16 : chunk.length = 16 then
      let k1 := leBytesToNat (chunk.take 8)
      let k2 := leBytesToNat (chunk.drop 8)
      let hs := murmurBlock k1 k2 h1 h2
      murmurLoop (bytes.drop 16) hs.1 hs.2 (processed + 16)
    else if h0 : chunk.length = 0 then
      .ok (murmurFinish h1 h2 processed)
    else
      let k1 := leBytesToNat (chunk.take 8)
      let k2 := leBytesToNat (chunk.drop 8)
      let hs := murmurTail k1 k2 h1 h2
      murmurLoop (bytes.drop 16) hs.1 hs.2 (processed + chunk.length)
termination_by bytes.length
decreasing_by
  · simp only [cursorRead, Except.ok.injEq] at hr
    subst hr
    simp only [List.length_take] at h16
    have hlen : 16 ≤ bytes.length := by omega
    simp only [List.length_drop]
    omega
  · simp only [cursorRead, Except.ok.injEq] at hr
    subst hr
    simp only [List.length_take] at h16 h0
    simp only [List.length_drop]
    omega

/-- Entry point `murmur3_x64_128(source, seed)` of the murmur3 crate,
specialised to a cursor over the in-memory byte list `bytes`; both 64-bit
accumulators start from the 32-bit seed. -/
def murmur3_x64_128 (bytes : List Nat) (seed : Nat) : Except String Nat :=
  murmurLoop bytes (seed % 2 ^ 32) (seed % 2 ^ 32) 0

/-- The `Murmur3Hasher` struct of `src/hashing/murmur3_impl.rs`: it
stores only a `u32` seed. -/
structure Murmur3Hasher where
  seed : Nat

/-- Constructor `Murmur3Hasher::with_seed(seed: u64)`: the 64-bit seed is
truncated to 32 bits by `seed as u32`. -/
def Murmur3Hasher.with_seed (seed : Nat) : Murmur3Hasher :=
  ⟨seed % 2 ^ 32⟩

/-- Method `Murmur3Hasher::hash`: feed the bytes to `murmur3_x64_128`
through an in-memory cursor, `.expect` the result (the error branch is a
panic, proved unreachable in `murmur3_x64_128_isOk`), and truncate the
128-bit digest to its low 64 bits (`hash128 as u64`). -/
def Murmur3Hasher.hash (h : Murmur3Hasher) (bytes : List Nat) : Nat :=
  match murmur3_x64_128 bytes h.seed with
  | .ok hash128 => hash128 % 2 ^ 64
  | .error _ => 0

/-! ## Bloom filter engine (`src/filters/bloom/standard.rs`) -/

/-- The `BloomFilter` struct.  The bit array (`bit_vec::BitVec`) is a
list of booleans; the two phantom marker fields carry no data and are
dropped; the configured false-positive rate `f : f64` is modelled as a
real number. -/
structure BloomFilter where
  bit_array : List Bool
  m : Nat
  k : Nat
  n : Nat
  f : ℝ
  count : Nat

namespace BloomFilter

/-- Sizing formula `calculate_m`:
`(-(n as f64) * f.ln() / (2f64.ln().powi(2))).ceil() as usize`,
with the saturating float-to-usize cast sending negative values to 0
(`Int.toNat`). -/
noncomputable def calculate_m (n : Nat) (f : ℝ) : Nat :=
  (Int.ceil (-(n : ℝ) * Real.log f / (Real.log 2) ^ 2)).toNat

/-- Sizing formula `calculate_k`:
`((m as f64 / n as f64) * 2f64.ln()).ceil() as usize`. -/
noncomputable def calculate_k (m n : Nat) : Nat :=
  (Int.ceil ((m : ℝ) / (n : ℝ) * Real.log 2)).toNat

/-- Constructor `BloomFilter::new(capacity, false_positive_rate)`.  The
`assert!(capacity > 0)` panic is modelled as `none`; otherwise the bit
array is allocated with `m` cleared bits and `count` starts at 0. -/
noncomputable def new (capacity : Nat) (false_positive_rate : ℝ) :
    Option BloomFilter :=
  if capacity > 0 then
    let m := calculate_m capacity false_positive_rate
    some { bit_array := List.replicate m false
           m := m
           k := calculate_k m capacity
           n := capacity
           f := false_positive_rate
           count := 0 }
  else none

variable {T : Type}

/-- Method `to_bytes`: the item is first digested by the standard
library `DefaultHasher` (an external SipHash implementation, modelled by
the parameter `dh` giving the 64-bit `finish()` value), and the digest is
serialised with `to_le_bytes` into 8 little-endian bytes. -/
def to_bytes (dh : T → Nat) (item : T) : List Nat :=
  (List.range 8).map fun j => dh item / 2 ^ (8 * j) % 256

/-- Method `hash_positions`: two base digests of the canonical bytes are
computed through the pluggable hasher (`H bytes seed`, modelling
`H::hash_with_seed`) with seeds 0 and 1 and truncated to `u32`; position
`i` is then `hash1.wrapping_add((i as u32).wrapping_mul(hash2))` taken
`% m` after the `as usize` widening. -/
def hash_positions (H : List Nat → Nat → Nat) (dh : T → Nat)
    (bf : BloomFilter) (item : T) : List Nat :=
  let hash1 := H (to_bytes dh item) 0 % 2 ^ 32
  let hash2 := H (to_bytes dh item) 1 % 2 ^ 32
  (List.range bf.k).map fun i =>
    let combined := (hash1 + i % 2 ^ 32 * hash2) % 2 ^ 32
    combined % bf.m

/-- Sequential `bit_array.set(pos, true)` over a list of positions;
`BitVec::set` panics (here: `none`) on an out-of-bounds index. -/
def setBits (a : List Bool) : List Nat → Option (List Bool)
  | [] => some a
  | p :: ps => if p < a.length then setBits (a.set p true) ps else none

/-- Trait method `insert` of `ApproximateMembershipQuery`: collect the
hash positions, set each corresponding bit, and increment `count`
unconditionally.  `none` models the out-of-bounds indexing panic. -/
def insert (H : List Nat → Nat → Nat) (dh : T → Nat)
    (bf : BloomFilter) (item : T) : Option BloomFilter :=
  (setBits bf.bit_array (hash_positions H dh bf item)).map fun a =>
    { bf with bit_array := a, count := bf.count + 1 }

/-- Short-circuiting `all` over the positions: a clear bit answers
`false` without evaluating later positions, and indexing out of bounds
panics (`none`). -/
def containsGo (a : List Bool) : List Nat → Option Bool
  | [] => some true
  | p :: ps =>
    match a[p]? with
    | none => none
    | some false => some false
    | some true => containsGo a ps

/-- Trait method `contains`:
`self.hash_positions(item).all(|pos| self.bit_array[pos])`. -/
def contains (H : List Nat → Nat → Nat) (dh : T → Nat)
    (bf : BloomFilter) (item : T) : Option Bool :=
  containsGo bf.bit_array (hash_positions H dh bf item)

/-- Trait method `len`: the raw insert-call count. -/
def len (bf : BloomFilter) : Nat :=
  bf.count

/-- Default trait method `is_empty` from `src/filters/traits.rs`:
`self.len() == 0`. -/
def is_empty (bf : BloomFilter) : Bool :=
  bf.len == 0

/-- Trait method `capacity`: the configured expected element count. -/
def capacity (bf : BloomFilter) : Nat :=
  bf.n

/-- Trait method `false_positive_rate`: the configured target rate. -/
def false_positive_rate (bf : BloomFilter) : ℝ :=
  bf.f

/-- Driver for the whole-sequence properties of the specification:
insert every item of a list in order, propagating a panic as `none`. -/
def insertAll (H : List Nat → Nat → Nat) (dh : T → Nat)
    (bf : BloomFilter) : List T → Option BloomFilter
  | [] => some bf
  | x :: xs =>
    match insert H dh bf x with
    | none => none
    | some bf2 => insertAll H dh bf2 xs

end BloomFilter

/-! ## Helper lemmas about the bit-array operations -/

namespace BloomFilter

variable {T : Type}

lemma setBits_length {a a2 : List Bool} {ps : List Nat}
    (h : setBits a ps = some a2) : a2.length = a.length := by
  induction ps generalizing a with
  | nil =>
    simp only [setBits, Option.some.injEq] at h
    subst h
    rfl
  | cons p ps ih =>
    simp only [setBits] at h
    split at h
    · exact (ih h).trans (List.length_set a p true)
    · exact absurd h (by simp)

lemma setBits_mono {a a2 : List Bool} {ps : List Nat} {q : Nat}
    (h : setBits a ps = some a2) (hq : a[q]? = some true) :
    a2[q]? = some true := by
  induction ps generalizing a with
  | nil => simp only [setBits, Option.some.injEq] at h; exact h ▸ hq
  | cons p ps ih =>
    simp only [setBits] at h
    split at h
    · refine ih h ?_
      rcases eq_or_ne p q with rfl | hne
      · exact List.getElem?_set_eq_of_lt true (by assumption)
      · rw [List.getElem?_set_ne hne]; exact hq
    · exact absurd h (by simp)

lemma setBits_sets {a a2 : List Bool} {ps : List Nat}
    (h : setBits a ps = some a2) : ∀ p ∈ ps, a2[p]? = some true := by
  induction ps generalizing a with
  | nil => intro p hp; simp at hp
  | cons p ps ih =>
    simp only [setBits] at h
    split at h
    · intro q hq
      rcases List.mem_cons.mp hq with rfl | hmem
      · exact setBits_mono h (List.getElem?_set_eq_of_lt true (by assumption))
      · exact ih h q hmem
    · exact absurd h (by simp)

lemma setBits_isSome {a : List Bool} {ps : List Nat}
    (h : ∀ p ∈ ps, p < a.length) : (setBits a ps).isSome := by
  induction ps generalizing a with
  | nil => simp [setBits]
  | cons p ps ih =>
    have hp : p < a.length := h p (List.mem_cons_self ..)
    simp only [setBits, if_pos hp]
    exact ih fun q hq => (List.length_set a p true).symm ▸
      h q (List.mem_cons_of_mem p hq)

lemma containsGo_of_all_true {a : List Bool} {ps : List Nat}
    (h : ∀ p ∈ ps, a[p]? = some true) : containsGo a ps = some true := by
  induction ps with
  | nil => rfl
  | cons p ps ih =>
    have hp := h p (List.mem_cons_self ..)
    simp only [containsGo, hp]
    exact ih fun q hq => h q (List.mem_cons_of_mem p hq)

lemma containsGo_isSome {a : List Bool} {ps : List Nat}
    (h : ∀ p ∈ ps, p < a.length) : (containsGo a ps).isSome := by
  induction ps with
  | nil => simp [containsGo]
  | cons p ps ih =>
    have hp : p < a.length := h p (List.mem_cons_self ..)
    simp only [containsGo, List.getElem?_eq_getElem hp]
    cases a[p] with
    | false => simp
    | true => exact ih fun q hq => h q (List.mem_cons_of_mem p hq)

/-- The hash positions of an item depend on the filter state only
through the immutable fields `m` and `k`. -/
lemma hash_positions_congr {H : List Nat → Nat → Nat} {dh : T → Nat}
    {bf bf2 : BloomFilter} (hm : bf2.m = bf.m) (hk : bf2.k = bf.k)
    (item : T) :
    hash_positions H dh bf2 item = hash_positions H dh bf item := by
  simp only [hash_positions, hm, hk]

lemma insert_spec {H : List Nat → Nat → Nat} {dh : T → Nat}
    {bf bf2 : BloomFilter} {item : T}
    (h : insert H dh bf item = some bf2) :
    bf2.m = bf.m ∧ bf2.k = bf.k ∧ bf2.n = bf.n ∧
    bf2.count = bf.count + 1 ∧
    bf2.bit_array.length = bf.bit_array.length ∧
    (∀ p ∈ hash_positions H dh bf item, bf2.bit_array[p]? = some true) ∧
    (∀ q : Nat, bf.bit_array[q]? = some true → bf2.bit_array[q]? = some true) := by
  simp only [insert, Option.map_eq_some'] at h
  obtain ⟨a, ha, rfl⟩ := h
  exact ⟨rfl, rfl, rfl, rfl, setBits_length ha,
    setBits_sets ha, fun q hq => setBits_mono ha hq⟩

lemma insertAll_spec {H : List Nat → Nat → Nat} {dh : T → Nat}
    {bf bf2 : BloomFilter} {I : List T}
    (h : insertAll H dh bf I = some bf2) :
    bf2.m = bf.m ∧ bf2.k = bf.k ∧
    bf2.bit_array.length = bf.bit_array.length ∧
    (∀ q : Nat, bf.bit_array[q]? = some true → bf2.bit_array[q]? = some true) ∧
    (∀ x ∈ I, ∀ p ∈ hash_positions H dh bf x,
      bf2.bit_array[p]? = some true) := by
  induction I generalizing bf with
  | nil =>
    simp only [insertAll, Option.some.injEq] at h
    subst h
    refine ⟨rfl, rfl, rfl, fun q hq => hq, ?_⟩
    intro x hx
    simp at hx
  | cons x xs ih =>
    simp only [insertAll] at h
    split at h
    · exact absurd h (by simp)
    · rename_i bf1 hins
      obtain ⟨hm1, hk1, hn1, hc1, hl1, hsets1, hmono1⟩ := insert_spec hins
      obtain ⟨hm2, hk2, hl2, hmono2, hsets2⟩ := ih h
      refine ⟨hm2.trans hm1, hk2.trans hk1, hl2.trans hl1,
        fun q hq => hmono2 q (hmono1 q hq), ?_⟩
      intro y hy p hp
      rcases List.mem_cons.mp hy with rfl | hmem
      · exact hmono2 p (hsets1 p hp)
      · exact hsets2 y hmem p (by rw [hash_positions_congr hm1 hk1]; exact hp)

lemma new_elim {n : Nat} {f : ℝ} {bf : BloomFilter}
    (h : new n f = some bf) :
    0 < n ∧ bf.m = calculate_m n f ∧
    bf.k = calculate_k (calculate_m n f) n ∧
    bf.bit_array = List.replicate (calculate_m n f) false ∧
    bf.n = n ∧ bf.f = f ∧ bf.count = 0 := by
  by_cases hn : 0 < n
  · simp only [new, if_pos hn, Option.some.injEq] at h
    subst h
    exact ⟨hn, rfl, rfl, rfl, rfl, rfl, rfl⟩
  · simp [new, if_neg hn] at h

lemma log_five_lower : 23 * Real.log 2 < 10 * Real.log 5 := by
  have h : Real.log ((2 : ℝ) ^ 23) < Real.log ((5 : ℝ) ^ 10) :=
    Real.log_lt_log (by positivity) (by norm_num)
  rw [Real.log_pow, Real.log_pow] at h
  push_cast at h
  linarith

lemma log_five_upper : 31 * Real.log 5 < 72 * Real.log 2 := by
  have h : Real.log ((5 : ℝ) ^ 31) < Real.log ((2 : ℝ) ^ 72) :=
    Real.log_lt_log (by positivity) (by norm_num)
  rw [Real.log_pow, Real.log_pow] at h
  push_cast at h
  linarith

lemma log_hundredth : Real.log ((1 : ℝ) / 100) =
    -(2 * Real.log 2 + 2 * Real.log 5) := by
  have h100 : (100 : ℝ) = (2 * 5) ^ 2 := by norm_num
  rw [one_div, Real.log_inv, h100, Real.log_pow,
    Real.log_mul (by norm_num) (by norm_num)]
  push_cast
  ring

lemma calculate_m_pos {n : Nat} {f : ℝ} (hn : 0 < n) (hf0 : 0 < f)
    (hf1 : f < 1) : 0 < calculate_m n f := by
  have hlog : Real.log f < 0 := Real.log_neg hf0 hf1
  have hl2 : 0 < Real.log 2 := Real.log_pos one_lt_two
  have hnum : 0 < -(n : ℝ) * Real.log f := by
    have hcast : (0 : ℝ) < (n : ℝ) := by exact_mod_cast hn
    nlinarith
  have hpos : 0 < -(n : ℝ) * Real.log f / (Real.log 2) ^ 2 :=
    div_pos hnum (by positivity)
  have := Int.ceil_pos.mpr hpos
  unfold calculate_m
  omega

lemma calculate_k_pos {m n : Nat} (hm : 0 < m) (hn : 0 < n) :
    0 < calculate_k m n := by
  have hl2 : 0 < Real.log 2 := Real.log_pos one_lt_two
  have hm2 : (0 : ℝ) < (m : ℝ) := by exact_mod_cast hm
  have hn2 : (0 : ℝ) < (n : ℝ) := by exact_mod_cast hn
  have hpos : 0 < (m : ℝ) / (n : ℝ) * Real.log 2 :=
    mul_pos (div_pos hm2 hn2) hl2
  have := Int.ceil_pos.mpr hpos
  unfold calculate_k
  omega

lemma calculate_m_1000 :
    9500 ≤ calculate_m 1000 (1 / 100) ∧ calculate_m 1000 (1 / 100) ≤ 9600 := by
  have l2lo := Real.log_two_gt_d9
  have l2hi := Real.log_two_lt_d9
  have h23 := log_five_lower
  have h31 := log_five_upper
  have ha : (0 : ℝ) < Real.log 2 := Real.log_pos one_lt_two
  have hexpr : -((1000 : Nat) : ℝ) * Real.log ((1 : ℝ) / 100) /
      (Real.log 2) ^ 2 =
      2000 * (Real.log 2 + Real.log 5) / (Real.log 2) ^ 2 := by
    rw [log_hundredth]
    push_cast
    ring
  have hlow : (9499 : ℝ) <
      2000 * (Real.log 2 + Real.log 5) / (Real.log 2) ^ 2 := by
    rw [lt_div_iff₀ (by positivity)]
    nlinarith
  have hhigh : 2000 * (Real.log 2 + Real.log 5) / (Real.log 2) ^ 2 ≤
      (9600 : ℝ) := by
    rw [div_le_iff₀ (by positivity)]
    nlinarith
  unfold calculate_m
  rw [hexpr]
  have hceil_lo : (9499 : ℤ) <
      Int.ceil (2000 * (Real.log 2 + Real.log 5) / (Real.log 2) ^ 2) :=
    Int.lt_ceil.mpr (by push_cast; exact hlow)
  have hceil_hi :
      Int.ceil (2000 * (Real.log 2 + Real.log 5) / (Real.log 2) ^ 2) ≤
      (9600 : ℤ) := Int.ceil_le.mpr (by push_cast; exact hhigh)
  omega

lemma calculate_k_9585 : calculate_k 9585 1000 = 7 := by
  have l2lo := Real.log_two_gt_d9
  have l2hi := Real.log_two_lt_d9
  have hceil :
      Int.ceil (((9585 : Nat) : ℝ) / ((1000 : Nat) : ℝ) * Real.log 2) =
      (7 : ℤ) := by
    rw [Int.ceil_eq_iff]
    push_cast
    constructor
    · nlinarith
    · nlinarith
  unfold calculate_k
  rw [hceil]
  rfl

lemma calculate_m_one_half : calculate_m 1 (1 / 2) = 2 := by
  have l2lo := Real.log_two_gt_d9
  have l2hi := Real.log_two_lt_d9
  have ha : (0 : ℝ) < Real.log 2 := Real.log_pos one_lt_two
  have hexpr : -((1 : Nat) : ℝ) * Real.log ((1 : ℝ) / 2) /
      (Real.log 2) ^ 2 = Real.log 2 / (Real.log 2) ^ 2 := by
    rw [one_div, Real.log_inv]
    push_cast
    ring
  have hceil : Int.ceil (Real.log 2 / (Real.log 2) ^ 2) = (2 : ℤ) := by
    rw [Int.ceil_eq_iff]
    constructor
    · push_cast
      rw [lt_div_iff₀ (by positivity)]
      nlinarith
    · push_cast
      rw [div_le_iff₀ (by positivity)]
      nlinarith
  unfold calculate_m
  rw [hexpr, hceil]
  rfl

lemma calculate_k_two_one : calculate_k 2 1 = 2 := by
  have l2lo := Real.log_two_gt_d9
  have l2hi := Real.log_two_lt_d9
  have hceil :
      Int.ceil (((2 : Nat) : ℝ) / ((1 : Nat) : ℝ) * Real.log 2) =
      (2 : ℤ) := by
    rw [Int.ceil_eq_iff]
    push_cast
    constructor
    · nlinarith
    · nlinarith
  unfold calculate_k
  rw [hceil]
  rfl

/-- Concrete outcome of `BloomFilter::new(1, 0.5)` in the model: two
bits, two hash functions. -/
noncomputable def bfHalf : BloomFilter :=
  { bit_array := [false, false], m := 2, k := 2, n := 1, f := 1 / 2,
    count := 0 }

lemma new_one_half : new 1 (1 / 2) = some bfHalf := by
  have hm := calculate_m_one_half
  simp only [new, if_pos Nat.one_pos, hm, calculate_k_two_one, bfHalf]
  rfl

lemma hash_positions_lt {H : List Nat → Nat → Nat} {dh : T → Nat}
    {bf : BloomFilter} (hm : 0 < bf.m) (item : T) :
    ∀ p ∈ hash_positions H dh bf item, p < bf.m := by
  intro p hp
  simp only [hash_positions, List.mem_map] at hp
  obtain ⟨i, _, rfl⟩ := hp
  exact Nat.mod_lt _ hm

lemma insert_isSome {H : List Nat → Nat → Nat} {dh : T → Nat}
    {bf : BloomFilter} (hm : 0 < bf.m) (hl : bf.bit_array.length = bf.m)
    (item : T) : (insert H dh bf item).isSome := by
  unfold insert
  rw [Option.isSome_map']
  exact setBits_isSome fun p hp => hl ▸ hash_positions_lt hm item p hp

lemma contains_isSome {H : List Nat → Nat → Nat} {dh : T → Nat}
    {bf : BloomFilter} (hm : 0 < bf.m) (hl : bf.bit_array.length = bf.m)
    (item : T) : (contains H dh bf item).isSome := by
  unfold contains
  exact containsGo_isSome fun p hp => hl ▸ hash_positions_lt hm item p hp

lemma insertAll_isSome {H : List Nat → Nat → Nat} {dh : T → Nat}
    {bf : BloomFilter} (hm : 0 < bf.m) (hl : bf.bit_array.length = bf.m)
    (I : List T) : (insertAll H dh bf I).isSome := by
  induction I generalizing bf with
  | nil => simp [insertAll]
  | cons x xs ih =>
    have hs := @insert_isSome T H dh bf hm hl x
    obtain ⟨bf2, hbf2⟩ := Option.isSome_iff_exists.mp hs
    obtain ⟨hm2, hk2, hn2, hc2, hl2, _⟩ := insert_spec hbf2
    simp only [insertAll, hbf2]
    exact ih (hm2 ▸ hm) (hl2.trans (hl.trans hm2.symm))

end BloomFilter

/-! ## Totality of the murmur3 read loop -/

lemma murmurLoop_isOk :
    ∀ (fuel : Nat) (bytes : List Nat), bytes.length ≤ fuel →
    ∀ h1 h2 p, (murmurLoop bytes h1 h2 p).isOk := by
  intro fuel
  induction fuel with
  | zero =>
    intro bytes hb h1 h2 p
    have hnil : bytes = [] := List.eq_nil_of_length_eq_zero (by omega)
    subst hnil
    rw [murmurLoop]
    rfl
  | succ fuel ih =>
    intro bytes hb h1 h2 p
    rw [murmurLoop]
    simp only [cursorRead]
    by_cases h16 : (bytes.take 16).length = 16
    · simp only [h16, dite_true, reduceDIte]
      refine ih (bytes.drop 16) ?_ _ _ _
      simp only [List.length_take] at h16
      simp only [List.length_drop]
      omega
    · by_cases h0 : (bytes.take 16).length = 0
      · simp only [h16, h0, dite_false, reduceDIte]
        rfl
      · simp only [h16, h0, dite_false, reduceDIte]
        refine ih (bytes.drop 16) ?_ _ _ _
        simp only [List.length_take] at h16 h0
        simp only [List.length_drop]
        omega

lemma murmur3_x64_128_isOk (bytes : List Nat) (seed : Nat) :
    (murmur3_x64_128 bytes seed).isOk :=
  murmurLoop_isOk bytes.length bytes le_rfl _ _ _

/-! ## Concrete instances used by the witness theorems -/

/-- Degenerate pluggable hasher used by concrete witnesses: every digest
is zero. -/
def zeroHasher : List Nat → Nat → Nat := fun _ _ => 0

/-- Identity stand-in for the `DefaultHasher` digest of a `Nat` item. -/
def idDigest : Nat → Nat := fun x => x

/-- The state of `bfHalf` after one insert of the item 7 under
`zeroHasher`: bit 0 set twice, count incremented once. -/
noncomputable def bfHalfIns : BloomFilter :=
  { bit_array := [true, false], m := 2, k := 2, n := 1, f := 1 / 2,
    count := 1 }

/-! ## Claim theorems -/

open BloomFilter

/-- C1.  No false negatives: for every valid construction (`n > 0`,
`0 < f < 1`) and every finite item sequence `I`, inserting every item of
`I` and then querying any item of `I` answers `some true`, regardless of
order, duplicates, or `|I|` exceeding the capacity. -/
theorem bloom_no_false_negatives (T : Type) (H : List Nat → Nat → Nat)
    (dh : T → Nat) (n : Nat) (f : ℝ) (bf0 bfF : BloomFilter) (I : List T)
    (hnew : new n f = some bf0) (hf0 : 0 < f) (hf1 : f < 1)
    (hins : insertAll H dh bf0 I = some bfF) :
    ∀ x ∈ I, contains H dh bfF x = some true := by
  intro x hx
  obtain ⟨hm, hk, _, _, hsets⟩ := insertAll_spec hins
  unfold contains
  rw [hash_positions_congr hm hk]
  exact containsGo_of_all_true fun p hp => hsets x hx p hp

/-- Witness for C1 at the concrete run `new 1 (1/2)`, inserting the
single item 7 under the degenerate hasher. -/
theorem bloom_no_false_negatives_witness :
    contains zeroHasher idDigest bfHalfIns 7 = some true :=
  bloom_no_false_negatives Nat zeroHasher idDigest 1 (1 / 2) bfHalf
    bfHalfIns [7] new_one_half (by norm_num) (by norm_num) rfl 7
    (by simp)

/-- Spec-side position list for claim C2: `position_i = (h1 + i * h2)
mod m` for `i` in `[0, k)`, the linear combination evaluated in wrapping
(modular) 32-bit arithmetic, where `h1` and `h2` are the full 64-bit
digests under seeds 0 and 1. -/
def doubleHashPositions (h1 h2 m k : Nat) : List Nat :=
  (List.range k).map fun i => (h1 + i * h2) % 2 ^ 32 % m

/-- C2.  Position derivation: insert and contains both use exactly the
`k` indices `(h1 + i * h2) mod m` with `h1` the pluggable digest of the
canonical bytes at seed 0 and `h2` the digest at seed 1, the linear
combination computed in wrapping fixed-width integer arithmetic. -/
theorem bloom_position_derivation (T : Type) (H : List Nat → Nat → Nat)
    (dh : T → Nat) (bf : BloomFilter) (item : T) :
    hash_positions H dh bf item =
      doubleHashPositions (H (to_bytes dh item) 0) (H (to_bytes dh item) 1)
        bf.m bf.k ∧
    (hash_positions H dh bf item).length = bf.k ∧
    insert H dh bf item =
      (setBits bf.bit_array
        (doubleHashPositions (H (to_bytes dh item) 0)
          (H (to_bytes dh item) 1) bf.m bf.k)).map
        (fun a => { bf with bit_array := a, count := bf.count + 1 }) ∧
    contains H dh bf item =
      containsGo bf.bit_array
        (doubleHashPositions (H (to_bytes dh item) 0)
          (H (to_bytes dh item) 1) bf.m bf.k) := by
  have hpos : hash_positions H dh bf item =
      doubleHashPositions (H (to_bytes dh item) 0) (H (to_bytes dh item) 1)
        bf.m bf.k := by
    simp only [hash_positions, doubleHashPositions]
    apply List.map_congr_left
    intro i _
    have hwrap : (H (to_bytes dh item) 0 % 2 ^ 32 +
        i % 2 ^ 32 * (H (to_bytes dh item) 1 % 2 ^ 32)) % 2 ^ 32 =
        (H (to_bytes dh item) 0 + i * H (to_bytes dh item) 1) % 2 ^ 32 :=
      (Nat.mod_modEq _ _).add ((Nat.mod_modEq i _).mul (Nat.mod_modEq _ _))
    simp only [hwrap]
  refine ⟨hpos, ?_, ?_, ?_⟩
  · simp [hash_positions]
  · unfold BloomFilter.insert
    rw [hpos]
  · unfold BloomFilter.contains
    rw [hpos]

/-- C3 is a code bug: evaluated at the failing input `n = 1`, `f = 1`
(outside `(0, 1)`), construction silently yields `m = 0` and a
zero-length bit array, since `ln 1 = 0` makes the ceiling zero. -/
theorem bloom_f_one_zero_size :
    (new 1 1).map (fun bf => (bf.m, bf.bit_array.length)) =
      some (0, 0) := by
  have hm : calculate_m 1 1 = 0 := by
    unfold calculate_m
    rw [Real.log_one]
    norm_num
  simp [new, hm]

/-- C4 counterexample: the distinct 64-bit seeds 0 and `2 ^ 32` produce
identical Murmur3 digests on the nonempty input `[1]`, because
`with_seed` truncates the seed to 32 bits; absolute seed sensitivity
fails. -/
theorem murmur3_seed_collision :
    (0 : Nat) ≠ 2 ^ 32 ∧ ([1] : List Nat) ≠ [] ∧
    (Murmur3Hasher.with_seed 0).hash [1] =
      (Murmur3Hasher.with_seed (2 ^ 32)).hash [1] := by
  refine ⟨by norm_num, by simp, ?_⟩
  have h : Murmur3Hasher.with_seed 0 = Murmur3Hasher.with_seed (2 ^ 32) := by
    unfold Murmur3Hasher.with_seed
    norm_num
  rw [h]

/-- C4 amended: seed sensitivity cannot be absolute for Murmur3Hasher,
which truncates its seed to 32 bits: any two seeds congruent modulo
`2 ^ 32` produce identical digests on every input; distinctness of
digests for other seed pairs is only a statistical property. -/
theorem murmur3_seed_congruent_eq (s1 s2 : Nat) (d : List Nat)
    (h : s1 % 2 ^ 32 = s2 % 2 ^ 32) :
    (Murmur3Hasher.with_seed s1).hash d =
      (Murmur3Hasher.with_seed s2).hash d := by
  unfold Murmur3Hasher.with_seed
  rw [h]

/-- Witness for the amended C4 at seeds 5 and `5 + 2 ^ 32`. -/
theorem murmur3_seed_congruent_eq_witness :
    (Murmur3Hasher.with_seed 5).hash [2, 3] =
      (Murmur3Hasher.with_seed (5 + 2 ^ 32)).hash [2, 3] :=
  murmur3_seed_congruent_eq 5 (5 + 2 ^ 32) [2, 3]
    (by rw [Nat.add_mod_right])

/-- C5.  Sizing formulas: construction derives `m` and `k` through
`calculate_m` / `calculate_k`; numerically, `m` for `(1000, 0.01)` lies
in `[9500, 9600]` and `k` for `(9585, 1000)` is exactly 7. -/
theorem bloom_sizing_formulas :
    (9500 ≤ calculate_m 1000 (1 / 100) ∧
      calculate_m 1000 (1 / 100) ≤ 9600) ∧
    calculate_k 9585 1000 = 7 ∧
    ∀ (n : Nat) (f : ℝ),
      (new (n + 1) f).map (fun bf => (bf.m, bf.k)) =
        some (calculate_m (n + 1) f,
          calculate_k (calculate_m (n + 1) f) (n + 1)) := by
  refine ⟨calculate_m_1000, calculate_k_9585, ?_⟩
  intro n f
  simp [new]

/-- C6.  Construction invariant: every valid construction has `m > 0`
and `k ≥ 1`, and `m` and `k` are unchanged by insert, the only mutating
operation. -/
theorem bloom_construction_invariant :
    (∀ (n : Nat) (f : ℝ) (bf : BloomFilter), new n f = some bf →
      0 < f → f < 1 → 0 < bf.m ∧ 1 ≤ bf.k) ∧
    (∀ (T : Type) (H : List Nat → Nat → Nat) (dh : T → Nat)
      (bf : BloomFilter) (item : T) (bf2 : BloomFilter),
      insert H dh bf item = some bf2 → bf2.m = bf.m ∧ bf2.k = bf.k) := by
  constructor
  · intro n f bf hnew hf0 hf1
    obtain ⟨hn, hm, hk, _⟩ := new_elim hnew
    have h1 := calculate_m_pos hn hf0 hf1
    have h2 := calculate_k_pos h1 hn
    rw [hm, hk]
    exact ⟨h1, h2⟩
  · intro T H dh bf item bf2 h
    obtain ⟨hm, hk, _⟩ := insert_spec h
    exact ⟨hm, hk⟩

/-- Witness for C6 at `new 1 (1/2)` and a concrete insert. -/
theorem bloom_construction_invariant_witness :
    (0 < bfHalf.m ∧ 1 ≤ bfHalf.k) ∧
    bfHalfIns.m = bfHalf.m ∧ bfHalfIns.k = bfHalf.k :=
  ⟨bloom_construction_invariant.1 1 (1 / 2) bfHalf new_one_half
      (by norm_num) (by norm_num),
    bloom_construction_invariant.2 Nat zeroHasher idDigest bfHalf 7
      bfHalfIns rfl⟩

/-- C7.  Construction failure: `new 0 f` fails (panics) for every `f`,
with no silent clamping, while `new n f` succeeds for every `n > 0`. -/
theorem bloom_new_capacity_check (f : ℝ) :
    new 0 f = none ∧ ∀ n : Nat, (new (n + 1) f).isSome = true := by
  constructor
  · simp [new]
  · intro n
    simp [new]

/-- C8.  Monotonic length: every completed insert increments `len` by
exactly 1 (even for duplicate items), insert is the only operation
touching `count`, and `is_empty` holds exactly when `len` is zero. -/
theorem bloom_monotonic_length :
    (∀ (T : Type) (H : List Nat → Nat → Nat) (dh : T → Nat)
      (bf : BloomFilter) (item : T) (bf2 : BloomFilter),
      insert H dh bf item = some bf2 → len bf2 = len bf + 1) ∧
    (∀ bf : BloomFilter, is_empty bf = true ↔ len bf = 0) := by
  constructor
  · intro T H dh bf item bf2 h
    obtain ⟨_, _, _, hc, _⟩ := insert_spec h
    simpa [len] using hc
  · intro bf
    simp [is_empty, len]

/-- Witness for C8: the concrete insert into `bfHalf` bumps `len` from 0
to 1. -/
theorem bloom_monotonic_length_witness :
    len bfHalfIns = len bfHalf + 1 :=
  bloom_monotonic_length.1 Nat zeroHasher idDigest bfHalf 7 bfHalfIns rfl

/-- C9.  Totality: on any filter reachable from a valid construction,
every derived position is below `m` (all bit-array accesses in bounds),
insert and contains never panic, and the murmur3 hash computation never
takes its internal error branch on in-memory data. -/
theorem bloom_operations_total :
    (∀ (T : Type) (H : List Nat → Nat → Nat) (dh : T → Nat) (n : Nat)
      (f : ℝ) (bf0 : BloomFilter), new n f = some bf0 → 0 < f → f < 1 →
      ∀ (I : List T) (bf : BloomFilter), insertAll H dh bf0 I = some bf →
      ∀ item : T,
        (∀ p ∈ hash_positions H dh bf item, p < bf.m) ∧
        (insert H dh bf item).isSome = true ∧
        (contains H dh bf item).isSome = true) ∧
    (∀ (bytes : List Nat) (seed : Nat),
      (murmur3_x64_128 bytes seed).isOk = true) := by
  constructor
  · intro T H dh n f bf0 hnew hf0 hf1 I bf hins item
    obtain ⟨hn, hm0, _, harr, _⟩ := new_elim hnew
    have hmpos0 : 0 < bf0.m := hm0 ▸ calculate_m_pos hn hf0 hf1
    have hlen0 : bf0.bit_array.length = bf0.m := by
      rw [harr, List.length_replicate, hm0]
    obtain ⟨hm, _, hl, _⟩ := insertAll_spec hins
    have hmpos : 0 < bf.m := hm ▸ hmpos0
    have hlen : bf.bit_array.length = bf.m := by
      rw [hl, hlen0, hm]
    exact ⟨hash_positions_lt hmpos item, insert_isSome hmpos hlen item,
      contains_isSome hmpos hlen item⟩
  · exact murmur3_x64_128_isOk

/-- Witness for C9 on the filter `new 1 (1/2)` with no prior inserts. -/
theorem bloom_operations_total_witness :
    (insert zeroHasher idDigest bfHalf 5).isSome = true ∧
    (contains zeroHasher idDigest bfHalf 5).isSome = true ∧
    (murmur3_x64_128 [1, 2] 0).isOk = true :=
  ⟨(bloom_operations_total.1 Nat zeroHasher idDigest 1 (1 / 2) bfHalf
      new_one_half (by norm_num) (by norm_num) [] bfHalf rfl 5).2.1,
    (bloom_operations_total.1 Nat zeroHasher idDigest 1 (1 / 2) bfHalf
      new_one_half (by norm_num) (by norm_num) [] bfHalf rfl 5).2.2,
    bloom_operations_total.2 [1, 2] 0⟩

/-- C10.  Murmur3Hasher depends on its seed only modulo `2 ^ 32`: the
digest of `with_seed s` equals the digest of `with_seed (s % 2 ^ 32)` on
every input, and seeds congruent modulo `2 ^ 32` define identical
hashers. -/
theorem murmur3_seed_low32 :
    (∀ (s : Nat) (d : List Nat),
      (Murmur3Hasher.with_seed s).hash d =
        (Murmur3Hasher.with_seed (s % 2 ^ 32)).hash d) ∧
    (∀ s1 s2 : Nat, s1 % 2 ^ 32 = s2 % 2 ^ 32 →
      Murmur3Hasher.with_seed s1 = Murmur3Hasher.with_seed s2) := by
  constructor
  · intro s d
    unfold Murmur3Hasher.with_seed
    have h : s % 2 ^ 32 % 2 ^ 32 = s % 2 ^ 32 := by omega
    rw [h]
  · intro s1 s2 h
    unfold Murmur3Hasher.with_seed
    rw [h]

/-- Witness for C10 at seeds 1 and `1 + 2 ^ 32`. -/
theorem murmur3_seed_low32_witness :
    Murmur3Hasher.with_seed 1 = Murmur3Hasher.with_seed (1 + 2 ^ 32) :=
  murmur3_seed_low32.2 1 (1 + 2 ^ 32) (by rw [Nat.add_mod_right])

end Sketches
